import Mathlib

/-!
A shallow embedding of the open-addressing hash table implemented in
`hash_table.h` / the accompanying C source file, together with proofs about
its behaviour.

Modelling conventions:
* C strings are modelled as lists of character codes (`Str := List Nat`).
* `ht_item*` bucket slots are modelled by the three-valued `Bucket` type:
  `empty` stands for a `NULL` slot, `deleted` for the static sentinel
  `&HT_DELETED_ITEM`, and `occ key value` for a live item.
* Machine integers are modelled by `Nat` (sizes, indexes, hashes) and by
  `Int` for the `count` field, which the C code can drive below zero.
  The load factor `ht->count * 100 / ht->size` uses C `int` division,
  i.e. truncation towards zero, modelled by `Int.tdiv`.
* The C `while` loops of `ht_insert`, `ht_search` and `ht_delete` have no
  a-priori termination bound, so they are modelled with an explicit fuel
  parameter; a result of `none` means the C loop has not terminated within
  `fuel` iterations.
* `(long)pow(a, len_s - (i+1))` in `ht_hash` is modelled as the exact
  integer power `a ^ (len - (i+1))`.  For ASCII keys of length at most 8
  this agrees exactly with the C computation (the `double` results are
  exactly representable); all concrete keys used below have length at
  most 2.
-/

/-- `HT_INITIAL_BASE_SIZE` from `hash_table.h`. -/
def HT_INITIAL_BASE_SIZE : Nat := 50

/-- `HT_PRIME_1` from `hash_table.h`. -/
def HT_PRIME_1 : Nat := 131

/-- `HT_PRIME_2` from `hash_table.h`. -/
def HT_PRIME_2 : Nat := 151

/-- A C string, as its list of character codes. -/
abbrev Str := List Nat

/-- One slot of the bucket array `ht->items`: `NULL`, the tombstone
sentinel `&HT_DELETED_ITEM`, or a live `ht_item`. -/
inductive Bucket : Type where
  | empty : Bucket
  | deleted : Bucket
  | occ (key value : Str) : Bucket
deriving DecidableEq, Repr

/-- The `ht_hash_table` struct. -/
structure HtTab : Type where
  base_size : Nat
  size : Nat
  count : Int
  items : List Bucket
deriving DecidableEq, Repr

/-- `ht_hash` from the C source: Horner-free polynomial accumulation,
`hash += pow(a, len_s - (i+1)) * s[i]; hash %= m` for every position `i`. -/
def ht_hash (s : Str) (a m : Nat) : Nat :=
  (List.range s.length).foldl
    (fun hash i => (hash + a ^ (s.length - (i + 1)) * s.getD i 0) % m) 0

/-- `ht_get_hash` from the C source: double hashing,
`(hash_a + attempt * (hash_b + 1)) % num_buckets`. -/
def ht_get_hash (s : Str) (num_buckets attempt : Nat) : Nat :=
  (ht_hash s HT_PRIME_1 num_buckets
    + attempt * (ht_hash s HT_PRIME_2 num_buckets + 1)) % num_buckets

/-- Executable primality test by trial division. -/
def isPrimeB (n : Nat) : Bool :=
  decide (2 ≤ n) && (List.range n).all (fun d => decide (d ≤ 1) || decide (n % d ≠ 0))

/-- Bounded search for the first `isPrimeB` candidate starting at `c`. -/
def next_prime_from : Nat → Nat → Nat
  | 0, c => c
  | f + 1, c => if isPrimeB c then c else next_prime_from f (c + 1)

/-- Modelled from the spec: the Prime-Size Oracle `next_prime` is called by
`ht_new_sized` but its definition (`prime.c` of the repository) is not among
the given source files.  The spec's contract is "`next_prime(n)` returns the
smallest prime ≥ `n` (for `n ≤ 1`, returns a defined minimum, e.g. 2)".
The fuel `n + 2` always suffices to reach a prime, by Bertrand's postulate. -/
def next_prime (n : Nat) : Nat :=
  next_prime_from (n + 2) (max n 2)

/-- `ht_new_sized` from the C source (allocation failure is not modelled). -/
def ht_new_sized (base_size : Nat) : HtTab :=
  { base_size := base_size
    size := next_prime base_size
    count := 0
    items := List.replicate (next_prime base_size) Bucket.empty }

/-- `ht_new` from the C source. -/
def ht_new : HtTab := ht_new_sized HT_INITIAL_BASE_SIZE

/-- The load factor computation `ht->count * 100 / ht->size` (C `int`
division truncates towards zero). -/
def loadOf (ht : HtTab) : Int :=
  Int.tdiv (ht.count * 100) (ht.size : Int)

/-- The probing loop of `ht_insert` (the `while (cur_item != NULL)` loop):
starting at `attempt`, skip tombstones and non-matching items; overwrite in
place on a key match (second component `false`: no count change); place the
new item in the first `NULL` slot otherwise (second component `true`:
`ht->count++`). -/
def ht_insertLoop (size : Nat) (key value : Str) :
    Nat → Nat → List Bucket → Option (List Bucket × Bool)
  | 0, _, _ => none
  | fuel + 1, attempt, items =>
    let index := ht_get_hash key size attempt
    match items.getD index Bucket.empty with
    | Bucket.empty => some (items.set index (Bucket.occ key value), true)
    | Bucket.deleted => ht_insertLoop size key value fuel (attempt + 1) items
    | Bucket.occ k _ =>
      if k = key then some (items.set index (Bucket.occ key value), false)
      else ht_insertLoop size key value fuel (attempt + 1) items

/-- Fold an insert operation over a list of key/value pairs (the re-insert
walk of `ht_resize`). -/
def insertAllWith (ins : HtTab → Str → Str → Option HtTab) :
    HtTab → List (Str × Str) → Option HtTab
  | ht, [] => some ht
  | ht, (k, v) :: rest =>
    match ins ht k v with
    | none => none
    | some ht1 => insertAllWith ins ht1 rest

/-- The live (non-`NULL`, non-tombstone) items of a bucket array, in slot
order: the pairs `ht_resize` re-inserts. -/
def liveItems (items : List Bucket) : List (Str × Str) :=
  items.filterMap fun b =>
    match b with
    | Bucket.occ k v => some (k, v)
    | _ => none

/-- Number of live items of a bucket array. -/
def countLive (items : List Bucket) : Nat :=
  (liveItems items).length

/-- `ht_resize` from the C source, parametric in the insert operation used
for the re-insert walk: no-op below `HT_INITIAL_BASE_SIZE`; otherwise build
a fresh table of size `next_prime base_size`, re-insert every live item, and
adopt the new table's `base_size`, `count`, `size` and `items` wholesale. -/
def htResizeWith (ins : HtTab → Str → Str → Option HtTab)
    (ht : HtTab) (base_size : Nat) : Option HtTab :=
  if base_size < HT_INITIAL_BASE_SIZE then some ht
  else
    match insertAllWith ins (ht_new_sized base_size) (liveItems ht.items) with
    | none => none
    | some nt =>
      some { base_size := nt.base_size
             size := nt.size
             count := nt.count
             items := nt.items }

/-- `ht_insert` from the C source: resize up when the load exceeds 70, then
run the probing loop and increment `count` exactly when a new slot was
filled.  Fuel decreases into the recursive inserts of a triggered resize. -/
def ht_insert : Nat → HtTab → Str → Str → Option HtTab
  | 0, _, _, _ => none
  | fuel + 1, ht, key, value =>
    match (if loadOf ht > 70
           then htResizeWith (ht_insert fuel) ht (ht.base_size * 2)
           else some ht) with
    | none => none
    | some ht1 =>
      match ht_insertLoop ht1.size key value (fuel + 1) 0 ht1.items with
      | none => none
      | some (items1, placed) =>
        some { ht1 with
               items := items1
               count := if placed then ht1.count + 1 else ht1.count }

/-- `ht_resize` with the fuelled `ht_insert` as the re-insert operation. -/
def ht_resize (fuel : Nat) (ht : HtTab) (base_size : Nat) : Option HtTab :=
  htResizeWith (ht_insert fuel) ht base_size

/-- `ht_resize_up` from the C source: double `base_size`. -/
def ht_resize_up (fuel : Nat) (ht : HtTab) : Option HtTab :=
  ht_resize fuel ht (ht.base_size * 2)

/-- `ht_resize_down` from the C source: halve `base_size`. -/
def ht_resize_down (fuel : Nat) (ht : HtTab) : Option HtTab :=
  ht_resize fuel ht (ht.base_size / 2)

/-- The probing loop of `ht_search`: `some (some v)` when a live matching
item is found, `some none` when a `NULL` slot ends the probe, `none` when
the loop has not terminated within `fuel` iterations. -/
def ht_searchLoop (size : Nat) (key : Str) (items : List Bucket) :
    Nat → Nat → Option (Option Str)
  | 0, _ => none
  | fuel + 1, attempt =>
    let index := ht_get_hash key size attempt
    match items.getD index Bucket.empty with
    | Bucket.empty => some none
    | Bucket.deleted => ht_searchLoop size key items fuel (attempt + 1)
    | Bucket.occ k v =>
      if k = key then some (some v)
      else ht_searchLoop size key items fuel (attempt + 1)

/-- `ht_search` from the C source. -/
def ht_search (fuel : Nat) (ht : HtTab) (key : Str) : Option (Option Str) :=
  ht_searchLoop ht.size key ht.items fuel 0

/-- The probing loop of `ht_search`, with the table threaded through as
explicit state, mirroring that the C function body receives the table and
returns with it untouched. -/
def ht_searchLoopS (key : Str) : Nat → Nat → HtTab → Option (HtTab × Option Str)
  | 0, _, _ => none
  | fuel + 1, attempt, ht =>
    let index := ht_get_hash key ht.size attempt
    match ht.items.getD index Bucket.empty with
    | Bucket.empty => some (ht, none)
    | Bucket.deleted => ht_searchLoopS key fuel (attempt + 1) ht
    | Bucket.occ k v =>
      if k = key then some (ht, some v)
      else ht_searchLoopS key fuel (attempt + 1) ht

/-- `ht_search` in state-passing form. -/
def ht_searchS (fuel : Nat) (ht : HtTab) (key : Str) : Option (HtTab × Option Str) :=
  ht_searchLoopS key fuel 0 ht

/-- The probing loop of `ht_delete`: replace every live matching item met
along the probe by the tombstone sentinel, and stop at the first `NULL`
slot. -/
def ht_deleteLoop (size : Nat) (key : Str) :
    Nat → Nat → List Bucket → Option (List Bucket)
  | 0, _, _ => none
  | fuel + 1, attempt, items =>
    let index := ht_get_hash key size attempt
    match items.getD index Bucket.empty with
    | Bucket.empty => some items
    | Bucket.deleted => ht_deleteLoop size key fuel (attempt + 1) items
    | Bucket.occ k _ =>
      if k = key then
        ht_deleteLoop size key fuel (attempt + 1) (items.set index Bucket.deleted)
      else ht_deleteLoop size key fuel (attempt + 1) items

/-- `ht_delete` from the C source: resize down when the load drops below
10, run the probing loop, then decrement `count` unconditionally. -/
def ht_delete (fuel : Nat) (ht : HtTab) (key : Str) : Option HtTab :=
  match (if loadOf ht < 10 then ht_resize_down fuel ht else some ht) with
  | none => none
  | some ht1 =>
    match ht_deleteLoop ht1.size key fuel 0 ht1.items with
    | none => none
    | some items1 =>
      some { ht1 with
             items := items1
             count := ht1.count - 1 }

/-- One driver operation against the table. -/
inductive Op : Type where
  | ins (key value : Str) : Op
  | del (key : Str) : Op
  | sea (key : Str) : Op
deriving DecidableEq, Repr

/-- Run one operation; a search leaves the table unchanged and a hanging
probe loop propagates as `none`. -/
def runOp (fuel : Nat) (ht : HtTab) : Op → Option HtTab
  | Op.ins k v => ht_insert fuel ht k v
  | Op.del k => ht_delete fuel ht k
  | Op.sea k => (ht_search fuel ht k).map fun _ => ht

/-- Run a list of operations from a table state. -/
def runOps (fuel : Nat) : HtTab → List Op → Option HtTab
  | ht, [] => some ht
  | ht, op :: rest =>
    match runOp fuel ht op with
    | none => none
    | some ht1 => runOps fuel ht1 rest

/-- Run a list of inserts from a fresh `ht_new` table. -/
def runInserts (fuel : Nat) (pairs : List (Str × Str)) : Option HtTab :=
  insertAllWith (fun ht k v => ht_insert fuel ht k v) ht_new pairs

/-! ### Basic facts about the prime-size oracle -/

theorem isPrimeB_iff (n : Nat) : isPrimeB n = true ↔ Nat.Prime n := by
  rw [isPrimeB]
  simp only [Bool.and_eq_true, List.all_eq_true, List.mem_range, decide_eq_true_eq,
    Bool.or_eq_true]
  constructor
  · rintro ⟨h2, hall⟩
    rw [Nat.prime_def_lt]
    refine ⟨h2, fun m hm hdvd => ?_⟩
    rcases hall m hm with h1 | hnd
    · rcases Nat.lt_or_ge m 1 with h0 | h0
      · exfalso
        have : m = 0 := by omega
        subst this
        have : n = 0 := Nat.eq_zero_of_zero_dvd hdvd
        omega
      · omega
    · exact absurd (Nat.mod_eq_zero_of_dvd hdvd) hnd
  · intro hp
    refine ⟨hp.two_le, fun d hd => ?_⟩
    by_cases hd1 : d ≤ 1
    · exact Or.inl hd1
    · refine Or.inr fun hmod => ?_
      have hdvd : d ∣ n := Nat.dvd_of_mod_eq_zero hmod
      rcases hp.eq_one_or_self_of_dvd d hdvd with h | h <;> omega

theorem next_prime_from_spec :
    ∀ f c, (∃ p, Nat.Prime p ∧ c ≤ p ∧ p < c + f) →
      Nat.Prime (next_prime_from f c) ∧ c ≤ next_prime_from f c := by
  intro f
  induction f with
  | zero =>
    rintro c ⟨p, _, h1, h2⟩
    omega
  | succ f ih =>
    rintro c ⟨p, hp, h1, h2⟩
    rw [next_prime_from]
    by_cases hc : isPrimeB c = true
    · rw [if_pos hc]
      exact ⟨(isPrimeB_iff c).mp hc, Nat.le_refl c⟩
    · rw [if_neg hc]
      have hne : c ≠ p := fun h => hc ((isPrimeB_iff c).mpr (h ▸ hp))
      have h' := ih (c + 1) ⟨p, hp, by omega, by omega⟩
      exact ⟨h'.1, by omega⟩

theorem next_prime_spec (n : Nat) : Nat.Prime (next_prime n) ∧ n ≤ next_prime n := by
  rw [next_prime]
  rcases Nat.lt_or_ge n 2 with h | h
  · have hmax : max n 2 = 2 := by omega
    rw [hmax]
    have h' := next_prime_from_spec (n + 2) 2 ⟨2, Nat.prime_two, Nat.le_refl 2, by omega⟩
    exact ⟨h'.1, by omega⟩
  · have hmax : max n 2 = n := by omega
    rw [hmax]
    obtain ⟨p, hp, h1, h2⟩ := Nat.exists_prime_lt_and_le_two_mul n (by omega)
    exact next_prime_from_spec (n + 2) n ⟨p, hp, by omega, by omega⟩

theorem prime_ge_fifty_ge_53 (p : Nat) (hp : Nat.Prime p) (h : 50 ≤ p) : 53 ≤ p := by
  by_contra h'
  push_neg at h'
  interval_cases p <;> revert hp <;> decide

theorem next_prime_pos (n : Nat) : 0 < next_prime n :=
  (next_prime_spec n).1.pos

/-! ### List micro-lemmas for the bucket array -/

theorem getD_set_self (l : List Bucket) (i : Nat) (b : Bucket) (h : i < l.length) :
    (l.set i b).getD i Bucket.empty = b := by
  induction l generalizing i with
  | nil => simp at h
  | cons hd tl ih =>
    cases i with
    | zero => rfl
    | succ i =>
      simp only [List.set, List.getD, List.getElem?_cons_succ]
      have := ih i (by simpa using h)
      simpa [List.getD] using this

theorem getD_set_ne (l : List Bucket) (i j : Nat) (b : Bucket) (h : i ≠ j) :
    (l.set i b).getD j Bucket.empty = l.getD j Bucket.empty := by
  induction l generalizing i j with
  | nil => simp
  | cons hd tl ih =>
    cases i with
    | zero =>
      cases j with
      | zero => omega
      | succ j => rfl
    | succ i =>
      cases j with
      | zero => rfl
      | succ j =>
        simp only [List.set, List.getD, List.getElem?_cons_succ]
        have := ih i j (by omega)
        simpa [List.getD] using this

theorem getD_replicate_empty (n j : Nat) :
    (List.replicate n Bucket.empty).getD j Bucket.empty = Bucket.empty := by
  induction n generalizing j with
  | zero => simp [List.getD]
  | succ n ih =>
    cases j with
    | zero => rfl
    | succ j =>
      simp only [List.replicate, List.getD, List.getElem?_cons_succ]
      simp only [List.getD] at ih
      exact ih j

theorem getD_eq_occ_lt_length (l : List Bucket) (j : Nat) (k v : Str)
    (h : l.getD j Bucket.empty = Bucket.occ k v) : j < l.length := by
  by_contra h'
  push_neg at h'
  rw [List.getD_eq_default] at h
  · exact absurd h (by simp)
  · exact h'

/-! ### Probe sequence basics -/

theorem ht_get_hash_lt (s : Str) (m a : Nat) (hm : 0 < m) : ht_get_hash s m a < m :=
  Nat.mod_lt _ hm

theorem ht_get_hash_period (s : Str) (m a : Nat) :
    ht_get_hash s m (a + m) = ht_get_hash s m a := by
  rw [ht_get_hash, ht_get_hash]
  have h : ht_hash s HT_PRIME_1 m + (a + m) * (ht_hash s HT_PRIME_2 m + 1)
      = ht_hash s HT_PRIME_1 m + a * (ht_hash s HT_PRIME_2 m + 1)
        + (ht_hash s HT_PRIME_2 m + 1) * m := by ring
  rw [h, Nat.add_mul_mod_self_right]

/-- The stop condition of the `ht_insert` / `ht_search` probing loops: a
`NULL` slot or a live key match ends the probe. -/
def stopB (key : Str) : Bucket → Bool
  | Bucket.empty => true
  | Bucket.deleted => false
  | Bucket.occ k _ => decide (k = key)

/-! ### Unfolding and composition lemmas for the probing loops -/

theorem ht_insertLoop_stop_empty (size : Nat) (key value : Str) (f a : Nat)
    (items : List Bucket)
    (h : items.getD (ht_get_hash key size a) Bucket.empty = Bucket.empty) :
    ht_insertLoop size key value (f + 1) a items =
      some (items.set (ht_get_hash key size a) (Bucket.occ key value), true) := by
  simp only [ht_insertLoop]
  rw [h]

theorem ht_insertLoop_stop_match (size : Nat) (key value v : Str) (f a : Nat)
    (items : List Bucket)
    (h : items.getD (ht_get_hash key size a) Bucket.empty = Bucket.occ key v) :
    ht_insertLoop size key value (f + 1) a items =
      some (items.set (ht_get_hash key size a) (Bucket.occ key value), false) := by
  simp only [ht_insertLoop]
  rw [h]
  simp

theorem ht_insertLoop_skip (size : Nat) (key value : Str) (f a : Nat)
    (items : List Bucket)
    (h : stopB key (items.getD (ht_get_hash key size a) Bucket.empty) = false) :
    ht_insertLoop size key value (f + 1) a items =
      ht_insertLoop size key value f (a + 1) items := by
  simp only [ht_insertLoop]
  cases hb : items.getD (ht_get_hash key size a) Bucket.empty with
  | empty => rw [hb] at h; simp [stopB] at h
  | deleted => rfl
  | occ k v =>
    rw [hb] at h
    simp only [stopB, decide_eq_false_iff_not] at h
    simp [h]

theorem ht_insertLoop_skip_n (size : Nat) (key value : Str) (items : List Bucket) :
    ∀ n f a, (∀ d, d < n →
        stopB key (items.getD (ht_get_hash key size (a + d)) Bucket.empty) = false) →
      ht_insertLoop size key value (f + n) a items =
        ht_insertLoop size key value f (a + n) items := by
  intro n
  induction n with
  | zero => intro f a _; rfl
  | succ n ih =>
    intro f a hskip
    have h0 : stopB key (items.getD (ht_get_hash key size a) Bucket.empty) = false := by
      have := hskip 0 (by omega)
      simpa using this
    have hstep : ht_insertLoop size key value (f + (n + 1)) a items
        = ht_insertLoop size key value (f + n) (a + 1) items := by
      have : f + (n + 1) = (f + n) + 1 := by omega
      rw [this, ht_insertLoop_skip size key value (f + n) a items h0]
    rw [hstep, ih f (a + 1) (fun d hd => by
      have := hskip (d + 1) (by omega)
      have harith : a + (d + 1) = a + 1 + d := by omega
      rwa [harith] at this)]
    have : a + 1 + n = a + (n + 1) := by omega
    rw [this]

theorem ht_insertLoop_none_of_skips (size : Nat) (key value : Str) (items : List Bucket) :
    ∀ f a, (∀ d, d < f →
        stopB key (items.getD (ht_get_hash key size (a + d)) Bucket.empty) = false) →
      ht_insertLoop size key value f a items = none := by
  intro f
  induction f with
  | zero => intro a _; rfl
  | succ f ih =>
    intro a hskip
    have h0 : stopB key (items.getD (ht_get_hash key size a) Bucket.empty) = false := by
      have := hskip 0 (by omega)
      simpa using this
    rw [show f + 1 = f + 1 from rfl, ht_insertLoop_skip size key value f a items h0]
    exact ih (a + 1) (fun d hd => by
      have := hskip (d + 1) (by omega)
      have harith : a + (d + 1) = a + 1 + d := by omega
      rwa [harith] at this)

theorem ht_searchLoop_stop_empty (size : Nat) (key : Str) (items : List Bucket) (f a : Nat)
    (h : items.getD (ht_get_hash key size a) Bucket.empty = Bucket.empty) :
    ht_searchLoop size key items (f + 1) a = some none := by
  simp only [ht_searchLoop]
  rw [h]

theorem ht_searchLoop_stop_match (size : Nat) (key v : Str) (items : List Bucket) (f a : Nat)
    (h : items.getD (ht_get_hash key size a) Bucket.empty = Bucket.occ key v) :
    ht_searchLoop size key items (f + 1) a = some (some v) := by
  simp only [ht_searchLoop]
  rw [h]
  simp

theorem ht_searchLoop_skip (size : Nat) (key : Str) (items : List Bucket) (f a : Nat)
    (h : stopB key (items.getD (ht_get_hash key size a) Bucket.empty) = false) :
    ht_searchLoop size key items (f + 1) a = ht_searchLoop size key items f (a + 1) := by
  simp only [ht_searchLoop]
  cases hb : items.getD (ht_get_hash key size a) Bucket.empty with
  | empty => rw [hb] at h; simp [stopB] at h
  | deleted => rfl
  | occ k v =>
    rw [hb] at h
    simp only [stopB, decide_eq_false_iff_not] at h
    simp [h]

theorem ht_searchLoop_skip_n (size : Nat) (key : Str) (items : List Bucket) :
    ∀ n f a, (∀ d, d < n →
        stopB key (items.getD (ht_get_hash key size (a + d)) Bucket.empty) = false) →
      ht_searchLoop size key items (f + n) a = ht_searchLoop size key items f (a + n) := by
  intro n
  induction n with
  | zero => intro f a _; rfl
  | succ n ih =>
    intro f a hskip
    have h0 : stopB key (items.getD (ht_get_hash key size a) Bucket.empty) = false := by
      have := hskip 0 (by omega)
      simpa using this
    have hstep : ht_searchLoop size key items (f + (n + 1)) a
        = ht_searchLoop size key items (f + n) (a + 1) := by
      have : f + (n + 1) = (f + n) + 1 := by omega
      rw [this, ht_searchLoop_skip size key items (f + n) a h0]
    rw [hstep, ih f (a + 1) (fun d hd => by
      have := hskip (d + 1) (by omega)
      have harith : a + (d + 1) = a + 1 + d := by omega
      rwa [harith] at this)]
    have : a + 1 + n = a + (n + 1) := by omega
    rw [this]

/-! ### The delete loop: it only writes tombstones, and afterwards the
search loop reports "not found" -/

theorem ht_deleteLoop_writes (size : Nat) (key : Str) :
    ∀ f a items items', ht_deleteLoop size key f a items = some items' →
      ∀ j, items'.getD j Bucket.empty = items.getD j Bucket.empty ∨
        items'.getD j Bucket.empty = Bucket.deleted := by
  intro f
  induction f with
  | zero => intro a items items' h; simp [ht_deleteLoop] at h
  | succ f ih =>
    intro a items items' h j
    simp only [ht_deleteLoop] at h
    cases hb : items.getD (ht_get_hash key size a) Bucket.empty with
    | empty =>
      rw [hb] at h
      simp only [Option.some.injEq] at h
      subst h
      exact Or.inl rfl
    | deleted =>
      rw [hb] at h
      exact ih _ _ _ h j
    | occ k v =>
      rw [hb] at h
      by_cases hk : k = key
      · simp only [hk, if_pos rfl] at h
        rcases ih _ _ _ h j with h1 | h1
        · by_cases hj : ht_get_hash key size a = j
          · subst hj
            rw [getD_set_self _ _ _ (getD_eq_occ_lt_length _ _ _ _ hb)] at h1
            exact Or.inr h1
          · rw [getD_set_ne _ _ _ _ hj] at h1
            exact Or.inl h1
        · exact Or.inr h1
      · simp only [hk, if_false] at h
        exact ih _ _ _ h j

theorem ht_deleteLoop_then_search (size : Nat) (key : Str) :
    ∀ f a items items', ht_deleteLoop size key f a items = some items' →
      ht_searchLoop size key items' f a = some none := by
  intro f
  induction f with
  | zero => intro a items items' h; simp [ht_deleteLoop] at h
  | succ f ih =>
    intro a items items' h
    simp only [ht_deleteLoop] at h
    cases hb : items.getD (ht_get_hash key size a) Bucket.empty with
    | empty =>
      rw [hb] at h
      simp only [Option.some.injEq] at h
      subst h
      exact ht_searchLoop_stop_empty size key items f a hb
    | deleted =>
      rw [hb] at h
      have hw : items'.getD (ht_get_hash key size a) Bucket.empty = Bucket.deleted := by
        rcases ht_deleteLoop_writes size key _ _ _ _ h (ht_get_hash key size a) with h1 | h1
        · rw [h1, hb]
        · exact h1
      rw [ht_searchLoop_skip size key items' f a (by rw [hw]; rfl)]
      exact ih _ _ _ h
    | occ k v =>
      rw [hb] at h
      by_cases hk : k = key
      · simp only [hk, if_pos rfl] at h
        have hlt : ht_get_hash key size a < items.length :=
          getD_eq_occ_lt_length _ _ _ _ hb
        have hw : items'.getD (ht_get_hash key size a) Bucket.empty = Bucket.deleted := by
          rcases ht_deleteLoop_writes size key _ _ _ _ h (ht_get_hash key size a) with h1 | h1
          · rw [h1, getD_set_self _ _ _ hlt]
          · exact h1
        rw [ht_searchLoop_skip size key items' f a (by rw [hw]; rfl)]
        exact ih _ _ _ h
      · simp only [hk, if_false] at h
        have hw : stopB key (items'.getD (ht_get_hash key size a) Bucket.empty) = false := by
          rcases ht_deleteLoop_writes size key _ _ _ _ h (ht_get_hash key size a) with h1 | h1
          · rw [h1, hb]
            simp [stopB, hk]
          · rw [h1]
            rfl
        rw [ht_searchLoop_skip size key items' f a hw]
        exact ih _ _ _ h

/-! ### The state-passing search loop never modifies the table -/

theorem ht_searchLoopS_fst (key : Str) :
    ∀ f a ht ht' r, ht_searchLoopS key f a ht = some (ht', r) → ht' = ht := by
  intro f
  induction f with
  | zero => intro a ht ht' r h; simp [ht_searchLoopS] at h
  | succ f ih =>
    intro a ht ht' r h
    simp only [ht_searchLoopS] at h
    cases hb : ht.items.getD (ht_get_hash key ht.size a) Bucket.empty with
    | empty =>
      rw [hb] at h
      simp only [Option.some.injEq, Prod.mk.injEq] at h
      exact h.1.symm
    | deleted =>
      rw [hb] at h
      exact ih _ _ _ _ h
    | occ k v =>
      rw [hb] at h
      by_cases hk : k = key
      · simp only [hk, if_true, eq_self_iff_true, Option.some.injEq, Prod.mk.injEq] at h
        exact h.1.symm
      · simp only [hk, if_false] at h
        exact ih _ _ _ _ h

/-! ### The table invariant: key uniqueness and probe reachability -/

/-- Whether a bucket holds a live item. -/
def isOccB : Bucket → Bool
  | Bucket.occ _ _ => true
  | _ => false

/-- The key of a live bucket (junk `[]` otherwise). -/
def occKey : Bucket → Str
  | Bucket.occ k _ => k
  | _ => []

/-- Every live key occupies at most one bucket. -/
def UniqKeys (items : List Bucket) : Prop :=
  ∀ i, i < items.length → ∀ j, j < items.length →
    isOccB (items.getD i Bucket.empty) = true →
    isOccB (items.getD j Bucket.empty) = true →
    occKey (items.getD i Bucket.empty) = occKey (items.getD j Bucket.empty) → i = j

/-- Every live bucket is reached by its key's probe sequence before any
`NULL` slot: this is what makes `ht_search` find it. -/
def ReachOk (size : Nat) (items : List Bucket) : Prop :=
  ∀ j, j < items.length → isOccB (items.getD j Bucket.empty) = true →
    ∃ t, t < size ∧
      ht_get_hash (occKey (items.getD j Bucket.empty)) size t = j ∧
      ∀ a, a < t →
        items.getD (ht_get_hash (occKey (items.getD j Bucket.empty)) size a)
          Bucket.empty ≠ Bucket.empty

/-- Well-formedness of a table state, as established by the operations
themselves for every table reachable from `ht_new`. -/
def TabInv (ht : HtTab) : Prop :=
  ht.items.length = ht.size ∧ 0 < ht.size ∧ UniqKeys ht.items ∧ ReachOk ht.size ht.items

/-- The table maps key `k` to value `v`: some bucket holds the live item
`(k, v)`. -/
def MapsTo (ht : HtTab) (k v : Str) : Prop :=
  ∃ j, j < ht.items.length ∧ ht.items.getD j Bucket.empty = Bucket.occ k v

/-- The table holds key `k` in some live bucket. -/
def HasKey (ht : HtTab) (k : Str) : Prop :=
  ∃ v, MapsTo ht k v

/-! ### liveItems and countLive -/

theorem mem_liveItems (items : List Bucket) (k v : Str) :
    (k, v) ∈ liveItems items ↔
      ∃ j, j < items.length ∧ items.getD j Bucket.empty = Bucket.occ k v := by
  induction items with
  | nil => simp [liveItems]
  | cons hd tl ih =>
    cases hd with
    | occ k0 v0 =>
      simp only [liveItems, List.filterMap_cons] at *
      constructor
      · intro hmem
        rcases List.mem_cons.mp hmem with heq | hmem'
        · refine ⟨0, by simp, ?_⟩
          simp only [List.getD_cons_zero]
          obtain ⟨h1, h2⟩ := Prod.mk.injEq .. ▸ heq
          rw [h1, h2]
        · obtain ⟨j, hj, hget⟩ := ih.mp hmem'
          exact ⟨j + 1, by simp; omega, by simpa using hget⟩
      · rintro ⟨j, hj, hget⟩
        cases j with
        | zero =>
          simp only [List.getD_cons_zero, Bucket.occ.injEq] at hget
          exact List.mem_cons.mpr (Or.inl (by rw [hget.1, hget.2]))
        | succ j =>
          simp only [List.getD_cons_succ] at hget
          refine List.mem_cons.mpr (Or.inr (ih.mpr ⟨j, ?_, hget⟩))
          simp at hj
          omega
    | empty =>
      simp only [liveItems, List.filterMap_cons] at *
      constructor
      · intro hmem
        obtain ⟨j, hj, hget⟩ := ih.mp hmem
        exact ⟨j + 1, by simp; omega, by simpa using hget⟩
      · rintro ⟨j, hj, hget⟩
        cases j with
        | zero => simp at hget
        | succ j =>
          simp only [List.getD_cons_succ] at hget
          refine ih.mpr ⟨j, ?_, hget⟩
          simp at hj
          omega
    | deleted =>
      simp only [liveItems, List.filterMap_cons] at *
      constructor
      · intro hmem
        obtain ⟨j, hj, hget⟩ := ih.mp hmem
        exact ⟨j + 1, by simp; omega, by simpa using hget⟩
      · rintro ⟨j, hj, hget⟩
        cases j with
        | zero => simp at hget
        | succ j =>
          simp only [List.getD_cons_succ] at hget
          refine ih.mpr ⟨j, ?_, hget⟩
          simp at hj
          omega

theorem liveItems_replicate_empty (n : Nat) :
    liveItems (List.replicate n Bucket.empty) = [] := by
  induction n with
  | zero => rfl
  | succ n ih =>
    simp only [liveItems, List.replicate, List.filterMap_cons] at *
    exact ih

theorem countLive_cons_occ (k v : Str) (l : List Bucket) :
    countLive (Bucket.occ k v :: l) = countLive l + 1 := by
  simp [countLive, liveItems, List.filterMap_cons]

theorem countLive_cons_empty (l : List Bucket) :
    countLive (Bucket.empty :: l) = countLive l := by
  simp [countLive, liveItems, List.filterMap_cons]

theorem countLive_cons_deleted (l : List Bucket) :
    countLive (Bucket.deleted :: l) = countLive l := by
  simp [countLive, liveItems, List.filterMap_cons]

theorem countLive_set_occ_of_occ (items : List Bucket) :
    ∀ j k v k0 v0, j < items.length →
      items.getD j Bucket.empty = Bucket.occ k0 v0 →
      countLive (items.set j (Bucket.occ k v)) = countLive items := by
  induction items with
  | nil => intro j _ _ _ _ hj _; simp at hj
  | cons hd tl ih =>
    intro j k v k0 v0 hj hget
    cases j with
    | zero =>
      simp only [List.getD_cons_zero] at hget
      subst hget
      simp only [List.set]
      rw [countLive_cons_occ, countLive_cons_occ]
    | succ j =>
      simp only [List.getD_cons_succ] at hget
      simp only [List.set]
      have hj' : j < tl.length := by simp at hj; omega
      have := ih j k v k0 v0 hj' hget
      cases hd with
      | occ k1 v1 => rw [countLive_cons_occ, countLive_cons_occ, this]
      | empty => rw [countLive_cons_empty, countLive_cons_empty, this]
      | deleted => rw [countLive_cons_deleted, countLive_cons_deleted, this]

theorem countLive_set_occ_of_empty (items : List Bucket) :
    ∀ j k v, j < items.length →
      items.getD j Bucket.empty = Bucket.empty →
      countLive (items.set j (Bucket.occ k v)) = countLive items + 1 := by
  induction items with
  | nil => intro j _ _ hj _; simp at hj
  | cons hd tl ih =>
    intro j k v hj hget
    cases j with
    | zero =>
      simp only [List.getD_cons_zero] at hget
      subst hget
      simp only [List.set]
      rw [countLive_cons_occ, countLive_cons_empty]
    | succ j =>
      simp only [List.getD_cons_succ] at hget
      simp only [List.set]
      have hj' : j < tl.length := by simp at hj; omega
      have := ih j k v hj' hget
      cases hd with
      | occ k1 v1 => rw [countLive_cons_occ, countLive_cons_occ, this]
      | empty => rw [countLive_cons_empty, countLive_cons_empty, this]
      | deleted => rw [countLive_cons_deleted, countLive_cons_deleted, this]

theorem nodup_liveKeys (items : List Bucket) (h : UniqKeys items) :
    (List.map Prod.fst (liveItems items)).Nodup := by
  induction items with
  | nil => simp [liveItems]
  | cons hd tl ih =>
    have htl : UniqKeys tl := by
      intro i hi j hj hoi hoj hk
      have := h (i + 1) (by simp; omega) (j + 1) (by simp; omega)
        (by simpa using hoi) (by simpa using hoj) (by simpa using hk)
      omega
    cases hd with
    | occ k0 v0 =>
      simp only [liveItems, List.filterMap_cons, List.map_cons]
      refine List.nodup_cons.mpr ⟨?_, ih htl⟩
      intro hmem
      obtain ⟨⟨k1, v1⟩, hmem1, hfst⟩ := List.mem_map.mp hmem
      have hmem2 : (k1, v1) ∈ liveItems tl := hmem1
      obtain ⟨j, hj, hget⟩ := (mem_liveItems tl k1 v1).mp hmem2
      have := h 0 (by simp) (j + 1) (by simp; omega)
        (by simp [isOccB]) (by simp only [List.getD_cons_succ]; rw [hget]; rfl)
        (by simp only [List.getD_cons_succ, List.getD_cons_zero]; rw [hget]
            simp only [occKey]
            exact hfst.symm)
      omega
    | empty =>
      simpa [liveItems, List.filterMap_cons] using ih htl
    | deleted =>
      simpa [liveItems, List.filterMap_cons] using ih htl

/-! ### Fresh tables satisfy the invariant -/

theorem getD_new_sized (b j : Nat) :
    (ht_new_sized b).items.getD j Bucket.empty = Bucket.empty := by
  simp only [ht_new_sized]
  exact getD_replicate_empty _ j

theorem TabInv_new_sized (b : Nat) : TabInv (ht_new_sized b) := by
  refine ⟨by simp [ht_new_sized], ?_, ?_, ?_⟩
  · simp only [ht_new_sized]
    exact next_prime_pos b
  · intro i _ j _ hoi _ _
    exfalso
    rw [getD_new_sized] at hoi
    simp [isOccB] at hoi
  · intro j _ hoj
    exfalso
    rw [getD_new_sized] at hoj
    simp [isOccB] at hoj

theorem not_MapsTo_new_sized (b : Nat) (k v : Str) : ¬ MapsTo (ht_new_sized b) k v := by
  rintro ⟨j, _, hget⟩
  rw [getD_new_sized] at hget
  exact Bucket.noConfusion hget

theorem countLive_new_sized (b : Nat) : countLive (ht_new_sized b).items = 0 := by
  simp only [ht_new_sized, countLive]
  rw [liveItems_replicate_empty]
  rfl

/-! ### Characterisation of a terminating insert probe loop -/

theorem ht_insertLoop_some_elim (size : Nat) (key value : Str) (items : List Bucket)
    (F : Nat) (r : List Bucket × Bool)
    (hrun : ht_insertLoop size key value F 0 items = some r) :
    ∃ t, t < F ∧
      (∀ a, a < t → stopB key (items.getD (ht_get_hash key size a) Bucket.empty) = false) ∧
      ((items.getD (ht_get_hash key size t) Bucket.empty = Bucket.empty ∧
         r = (items.set (ht_get_hash key size t) (Bucket.occ key value), true)) ∨
       (∃ v, items.getD (ht_get_hash key size t) Bucket.empty = Bucket.occ key v ∧
         r = (items.set (ht_get_hash key size t) (Bucket.occ key value), false))) := by
  have hex : ∃ a, stopB key (items.getD (ht_get_hash key size a) Bucket.empty) = true := by
    by_contra hno
    push_neg at hno
    have hskips : ∀ d, d < F →
        stopB key (items.getD (ht_get_hash key size (0 + d)) Bucket.empty) = false := by
      intro d _
      exact Bool.eq_false_iff.mpr (hno (0 + d))
    have hnone := ht_insertLoop_none_of_skips size key value items F 0 hskips
    rw [hrun] at hnone
    exact Option.noConfusion hnone
  have hstop := Nat.find_spec hex
  have hmin : ∀ a, a < Nat.find hex →
      stopB key (items.getD (ht_get_hash key size a) Bucket.empty) = false :=
    fun a ha => Bool.eq_false_iff.mpr (Nat.find_min hex ha)
  have htF : Nat.find hex < F := by
    by_contra hge
    push_neg at hge
    have hskips : ∀ d, d < F →
        stopB key (items.getD (ht_get_hash key size (0 + d)) Bucket.empty) = false := by
      intro d hd
      have := hmin d (by omega)
      simpa using this
    have hnone := ht_insertLoop_none_of_skips size key value items F 0 hskips
    rw [hrun] at hnone
    exact Option.noConfusion hnone
  refine ⟨Nat.find hex, htF, hmin, ?_⟩
  have hdecomp : F = (F - Nat.find hex) + Nat.find hex := by omega
  have hrun2 : ht_insertLoop size key value ((F - Nat.find hex) + Nat.find hex) 0 items
      = some r := by rw [← hdecomp]; exact hrun
  rw [ht_insertLoop_skip_n size key value items (Nat.find hex) (F - Nat.find hex) 0
    (fun d hd => by simpa using hmin d hd)] at hrun2
  simp only [Nat.zero_add] at hrun2
  obtain ⟨g, hg⟩ : ∃ g, F - Nat.find hex = g + 1 := ⟨F - Nat.find hex - 1, by omega⟩
  rw [hg] at hrun2
  cases hb : items.getD (ht_get_hash key size (Nat.find hex)) Bucket.empty with
  | empty =>
    rw [ht_insertLoop_stop_empty size key value g (Nat.find hex) items hb] at hrun2
    simp only [Option.some.injEq] at hrun2
    exact Or.inl ⟨rfl, hrun2.symm⟩
  | deleted =>
    rw [hb] at hstop
    simp [stopB] at hstop
  | occ k v =>
    have hk : k = key := by
      rw [hb] at hstop
      simpa [stopB] using hstop
    rw [hk] at hb
    rw [ht_insertLoop_stop_match size key value v g (Nat.find hex) items hb] at hrun2
    simp only [Option.some.injEq] at hrun2
    exact Or.inr ⟨v, by rw [hk], hrun2.symm⟩

/-! ### Search finds every invariant-respecting live binding -/

theorem ht_search_found (ht : HtTab) (key value : Str)
    (hInv : TabInv ht) (hmaps : MapsTo ht key value) :
    ∀ F, ht.size ≤ F → ht_search F ht key = some (some value) := by
  obtain ⟨hlen, hpos, huniq, hreach⟩ := hInv
  obtain ⟨j, hj, hget⟩ := hmaps
  have hocc : isOccB (ht.items.getD j Bucket.empty) = true := by rw [hget]; rfl
  obtain ⟨t, htlt, hprobe, hne⟩ := hreach j hj hocc
  rw [hget] at hprobe hne
  simp only [occKey] at hprobe hne
  have hstop_t : stopB key (ht.items.getD (ht_get_hash key ht.size t) Bucket.empty)
      = true := by
    rw [hprobe, hget]
    simp [stopB]
  have hex : ∃ a,
      stopB key (ht.items.getD (ht_get_hash key ht.size a) Bucket.empty) = true :=
    ⟨t, hstop_t⟩
  have hstop := Nat.find_spec hex
  have hmin : ∀ a, a < Nat.find hex →
      stopB key (ht.items.getD (ht_get_hash key ht.size a) Bucket.empty) = false :=
    fun a ha => Bool.eq_false_iff.mpr (Nat.find_min hex ha)
  have ht0le : Nat.find hex ≤ t := Nat.find_min' hex hstop_t
  cases hb : ht.items.getD (ht_get_hash key ht.size (Nat.find hex)) Bucket.empty with
  | empty =>
    exfalso
    rcases Nat.lt_or_ge (Nat.find hex) t with hlt | hge
    · exact hne (Nat.find hex) hlt hb
    · have heq : Nat.find hex = t := by omega
      rw [heq, hprobe, hget] at hb
      exact Bucket.noConfusion hb
  | deleted =>
    exfalso
    rw [hb] at hstop
    simp [stopB] at hstop
  | occ k v1 =>
    have hk : k = key := by
      rw [hb] at hstop
      simpa [stopB] using hstop
    rw [hk] at hb
    have hjlt : ht_get_hash key ht.size (Nat.find hex) < ht.items.length :=
      getD_eq_occ_lt_length _ _ _ _ hb
    have heqj : ht_get_hash key ht.size (Nat.find hex) = j := by
      refine huniq _ hjlt j hj ?_ hocc ?_
      · rw [hb]; rfl
      · rw [hb, hget]; rfl
    have hv : v1 = value := by
      have hb2 := hb
      rw [heqj, hget] at hb2
      injection hb2 with h1 h2
      exact h2.symm
    rw [hv] at hb
    intro F hF
    rw [ht_search]
    have hdecomp : F = (F - Nat.find hex) + Nat.find hex := by omega
    rw [hdecomp, ht_searchLoop_skip_n ht.size key ht.items (Nat.find hex)
      (F - Nat.find hex) 0 (fun d hd => by simpa using hmin d hd)]
    simp only [Nat.zero_add]
    obtain ⟨g, hg⟩ : ∃ g, F - Nat.find hex = g + 1 := ⟨F - Nat.find hex - 1, by omega⟩
    rw [hg]
    exact ht_searchLoop_stop_match ht.size key value ht.items g (Nat.find hex) hb

theorem stopB_false_ne_empty (key : Str) (b : Bucket) (h : stopB key b = false) :
    b ≠ Bucket.empty := by
  intro hb
  rw [hb] at h
  exact Bool.noConfusion h

theorem isOccB_elim (b : Bucket) (h : isOccB b = true) : ∃ k v, b = Bucket.occ k v := by
  cases b with
  | empty => exact Bool.noConfusion h
  | deleted => exact Bool.noConfusion h
  | occ k v => exact ⟨k, v, rfl⟩

/-- What one terminating run of the `ht_insert` probing loop does to an
invariant-respecting bucket array: it either fills the first `NULL` slot of
the key's probe sequence with the new item (`placed = true`), or overwrites
the unique live bucket of the key in place (`placed = false`); bucket-array
length, key uniqueness and reachability are preserved, the live bindings
are updated pointwise, and the number of live items grows by one exactly
when `placed = true`. -/
theorem ht_insertLoop_char (size : Nat) (key value : Str) (items : List Bucket)
    (F : Nat) (items1 : List Bucket) (placed : Bool)
    (hlen : items.length = size) (hpos : 0 < size)
    (huniq : UniqKeys items) (hreach : ReachOk size items)
    (hrun : ht_insertLoop size key value F 0 items = some (items1, placed)) :
    items1.length = items.length ∧
    UniqKeys items1 ∧
    ReachOk size items1 ∧
    (∀ k v, (∃ j, j < items1.length ∧ items1.getD j Bucket.empty = Bucket.occ k v) ↔
       ((k = key ∧ v = value) ∨
        (k ≠ key ∧ ∃ j, j < items.length ∧ items.getD j Bucket.empty = Bucket.occ k v))) ∧
    countLive items1 = countLive items + (if placed then 1 else 0) := by
  obtain ⟨t, htF, hmin, hbranch⟩ :=
    ht_insertLoop_some_elim size key value items F (items1, placed) hrun
  have hstopt : stopB key (items.getD (ht_get_hash key size t) Bucket.empty) = true := by
    rcases hbranch with ⟨hempty, _⟩ | ⟨v0, hmatch, _⟩
    · rw [hempty]; rfl
    · rw [hmatch]; simp [stopB]
  have htsize : t < size := by
    by_contra hge
    push_neg at hge
    have hper : ht_get_hash key size (t - size + size) = ht_get_hash key size (t - size) :=
      ht_get_hash_period key size (t - size)
    have heq : t - size + size = t := by omega
    rw [heq] at hper
    have hsk := hmin (t - size) (by omega)
    rw [← hper] at hsk
    rw [hsk] at hstopt
    exact Bool.noConfusion hstopt
  have hidx_lt : ht_get_hash key size t < items.length := by
    rw [hlen]
    exact ht_get_hash_lt key size t hpos
  rcases hbranch with ⟨hempty, hr⟩ | ⟨v0, hmatch, hr⟩
  · -- the loop filled the first NULL slot of the probe sequence
    have hset : items1 = items.set (ht_get_hash key size t) (Bucket.occ key value) := by
      have := congrArg Prod.fst hr
      simpa using this
    have hplaced : placed = true := by
      have := congrArg Prod.snd hr
      simpa using this
    -- a NULL stop means the key is not live anywhere
    have hnolive : ∀ j v1, j < items.length →
        items.getD j Bucket.empty = Bucket.occ key v1 → False := by
      intro j v1 hjl hj
      have hocc : isOccB (items.getD j Bucket.empty) = true := by rw [hj]; rfl
      obtain ⟨tj, htj, hprobe, hne⟩ := hreach j hjl hocc
      rw [hj] at hprobe hne
      simp only [occKey] at hprobe hne
      have hstop_tj : stopB key (items.getD (ht_get_hash key size tj) Bucket.empty)
          = true := by
        rw [hprobe, hj]
        simp [stopB]
      have h1 : ¬ tj < t := by
        intro hlt
        rw [hmin tj hlt] at hstop_tj
        exact Bool.noConfusion hstop_tj
      rcases Nat.lt_or_ge t tj with hlt | hge
      · exact hne t hlt hempty
      · have heq : t = tj := by omega
        rw [heq, hprobe] at hempty
        rw [hempty] at hj
        exact Bucket.noConfusion hj
    have hlen1 : items1.length = items.length := by
      rw [hset, List.length_set]
    have hget1_self : items1.getD (ht_get_hash key size t) Bucket.empty
        = Bucket.occ key value := by
      rw [hset]
      exact getD_set_self _ _ _ hidx_lt
    have hget1_other : ∀ p, p ≠ ht_get_hash key size t →
        items1.getD p Bucket.empty = items.getD p Bucket.empty := by
      intro p hp
      rw [hset]
      exact getD_set_ne _ _ _ _ (fun h => hp h.symm)
    have hne1 : ∀ p, items.getD p Bucket.empty ≠ Bucket.empty →
        items1.getD p Bucket.empty ≠ Bucket.empty := by
      intro p hp
      by_cases hpi : p = ht_get_hash key size t
      · rw [hpi, hget1_self]
        exact fun h => Bucket.noConfusion h
      · rw [hget1_other p hpi]
        exact hp
    refine ⟨hlen1, ?_, ?_, ?_, ?_⟩
    · -- key uniqueness
      intro i hi j hj hoi hoj hkeq
      rw [hlen1] at hi hj
      by_cases hik : i = ht_get_hash key size t <;>
        by_cases hjk : j = ht_get_hash key size t
      · rw [hik, hjk]
      · exfalso
        rw [hik, hget1_self] at hkeq
        rw [hget1_other j hjk] at hoj hkeq
        obtain ⟨k2, v2, hb2⟩ := isOccB_elim _ hoj
        rw [hb2] at hkeq
        simp only [occKey] at hkeq
        rw [← hkeq] at hb2
        exact hnolive j v2 hj hb2
      · exfalso
        rw [hjk, hget1_self] at hkeq
        rw [hget1_other i hik] at hoi hkeq
        obtain ⟨k2, v2, hb2⟩ := isOccB_elim _ hoi
        rw [hb2] at hkeq
        simp only [occKey] at hkeq
        rw [hkeq] at hb2
        exact hnolive i v2 hi hb2
      · rw [hget1_other i hik] at hoi hkeq
        rw [hget1_other j hjk] at hoj hkeq
        exact huniq i hi j hj hoi hoj hkeq
    · -- reachability
      intro j hj hocc
      rw [hlen1] at hj
      by_cases hjk : j = ht_get_hash key size t
      · refine ⟨t, htsize, ?_, ?_⟩
        · rw [hjk, hget1_self]
          rfl
        · intro a ha
          rw [hjk, hget1_self]
          simp only [occKey]
          exact hne1 _ (stopB_false_ne_empty key _ (hmin a ha))
      · rw [hget1_other j hjk] at hocc
        obtain ⟨tj, htj, hprobe, hne⟩ := hreach j hj hocc
        refine ⟨tj, htj, ?_, ?_⟩
        · rw [hget1_other j hjk]
          exact hprobe
        · intro a ha
          rw [hget1_other j hjk]
          exact hne1 _ (hne a ha)
    · -- the live bindings
      intro k v
      constructor
      · rintro ⟨j, hj, hget⟩
        rw [hlen1] at hj
        by_cases hjk : j = ht_get_hash key size t
        · rw [hjk, hget1_self] at hget
          injection hget with h1 h2
          exact Or.inl ⟨h1.symm, h2.symm⟩
        · rw [hget1_other j hjk] at hget
          refine Or.inr ⟨?_, j, hj, hget⟩
          intro hkk
          rw [hkk] at hget
          exact hnolive j v hj hget
      · rintro (⟨hk, hv⟩ | ⟨hk, j, hj, hget⟩)
        · refine ⟨ht_get_hash key size t, ?_, ?_⟩
          · rw [hlen1]; exact hidx_lt
          · rw [hget1_self, hk, hv]
        · refine ⟨j, ?_, ?_⟩
          · rw [hlen1]; exact hj
          · have hjk : j ≠ ht_get_hash key size t := by
              intro hjj
              rw [hjj, hempty] at hget
              exact Bucket.noConfusion hget
            rw [hget1_other j hjk]
            exact hget
    · -- live count
      rw [hplaced, hset]
      simp only [if_true]
      exact countLive_set_occ_of_empty items _ key value hidx_lt hempty
  · -- the loop overwrote the key's unique live bucket in place
    have hset : items1 = items.set (ht_get_hash key size t) (Bucket.occ key value) := by
      have := congrArg Prod.fst hr
      simpa using this
    have hplaced : placed = false := by
      have := congrArg Prod.snd hr
      simpa using this
    have hlen1 : items1.length = items.length := by
      rw [hset, List.length_set]
    have hget1_self : items1.getD (ht_get_hash key size t) Bucket.empty
        = Bucket.occ key value := by
      rw [hset]
      exact getD_set_self _ _ _ hidx_lt
    have hget1_other : ∀ p, p ≠ ht_get_hash key size t →
        items1.getD p Bucket.empty = items.getD p Bucket.empty := by
      intro p hp
      rw [hset]
      exact getD_set_ne _ _ _ _ (fun h => hp h.symm)
    have hne1 : ∀ p, items.getD p Bucket.empty ≠ Bucket.empty →
        items1.getD p Bucket.empty ≠ Bucket.empty := by
      intro p hp
      by_cases hpi : p = ht_get_hash key size t
      · rw [hpi, hget1_self]
        exact fun h => Bucket.noConfusion h
      · rw [hget1_other p hpi]
        exact hp
    -- any other live bucket with this key would violate uniqueness
    have honly : ∀ j v1, j < items.length →
        items.getD j Bucket.empty = Bucket.occ key v1 →
        j = ht_get_hash key size t := by
      intro j v1 hjl hj
      refine huniq j hjl _ hidx_lt ?_ ?_ ?_
      · rw [hj]; rfl
      · rw [hmatch]; rfl
      · rw [hj, hmatch]; rfl
    refine ⟨hlen1, ?_, ?_, ?_, ?_⟩
    · -- key uniqueness
      intro i hi j hj hoi hoj hkeq
      rw [hlen1] at hi hj
      by_cases hik : i = ht_get_hash key size t <;>
        by_cases hjk : j = ht_get_hash key size t
      · rw [hik, hjk]
      · exfalso
        rw [hik, hget1_self] at hkeq
        rw [hget1_other j hjk] at hoj hkeq
        obtain ⟨k2, v2, hb2⟩ := isOccB_elim _ hoj
        rw [hb2] at hkeq
        simp only [occKey] at hkeq
        rw [← hkeq] at hb2
        exact hjk (honly j v2 hj hb2)
      · exfalso
        rw [hjk, hget1_self] at hkeq
        rw [hget1_other i hik] at hoi hkeq
        obtain ⟨k2, v2, hb2⟩ := isOccB_elim _ hoi
        rw [hb2] at hkeq
        simp only [occKey] at hkeq
        rw [hkeq] at hb2
        exact hik (honly i v2 hi hb2)
      · rw [hget1_other i hik] at hoi hkeq
        rw [hget1_other j hjk] at hoj hkeq
        exact huniq i hi j hj hoi hoj hkeq
    · -- reachability
      intro j hj hocc
      rw [hlen1] at hj
      by_cases hjk : j = ht_get_hash key size t
      · have hocc0 : isOccB (items.getD j Bucket.empty) = true := by
          rw [hjk, hmatch]; rfl
        obtain ⟨tj, htj, hprobe, hne⟩ := hreach j hj hocc0
        have hkeysame : occKey (items.getD j Bucket.empty) = key := by
          rw [hjk, hmatch]; rfl
        rw [hkeysame] at hprobe hne
        refine ⟨tj, htj, ?_, ?_⟩
        · rw [hjk, hget1_self]
          simp only [occKey]
          rw [← hjk]
          exact hprobe
        · intro a ha
          rw [hjk, hget1_self]
          simp only [occKey]
          exact hne1 _ (hne a ha)
      · rw [hget1_other j hjk] at hocc
        obtain ⟨tj, htj, hprobe, hne⟩ := hreach j hj hocc
        refine ⟨tj, htj, ?_, ?_⟩
        · rw [hget1_other j hjk]
          exact hprobe
        · intro a ha
          rw [hget1_other j hjk]
          exact hne1 _ (hne a ha)
    · -- the live bindings
      intro k v
      constructor
      · rintro ⟨j, hj, hget⟩
        rw [hlen1] at hj
        by_cases hjk : j = ht_get_hash key size t
        · rw [hjk, hget1_self] at hget
          injection hget with h1 h2
          exact Or.inl ⟨h1.symm, h2.symm⟩
        · rw [hget1_other j hjk] at hget
          refine Or.inr ⟨?_, j, hj, hget⟩
          intro hkk
          rw [hkk] at hget
          exact hjk (honly j v hj hget)
      · rintro (⟨hk, hv⟩ | ⟨hk, j, hj, hget⟩)
        · refine ⟨ht_get_hash key size t, ?_, ?_⟩
          · rw [hlen1]; exact hidx_lt
          · rw [hget1_self, hk, hv]
        · refine ⟨j, ?_, ?_⟩
          · rw [hlen1]; exact hj
          · have hjk : j ≠ ht_get_hash key size t := by
              intro hjj
              rw [hjj, hmatch] at hget
              injection hget with h1 h2
              exact hk h1.symm
            rw [hget1_other j hjk]
            exact hget
    · -- live count
      rw [hplaced, hset]
      rw [countLive_set_occ_of_occ items _ key value key v0 hidx_lt hmatch]
      simp

/-- The functional specification of one insert operation: it preserves the
invariant, updates the live bindings at exactly the inserted key, and keeps
`count` synchronised with the number of live items whenever it was
synchronised before. -/
def InsSpec (ins : HtTab → Str → Str → Option HtTab) : Prop :=
  ∀ ht key value ht1, TabInv ht → ins ht key value = some ht1 →
    TabInv ht1 ∧
    (∀ k v, MapsTo ht1 k v ↔ ((k = key ∧ v = value) ∨ (k ≠ key ∧ MapsTo ht k v))) ∧
    (ht.count = (countLive ht.items : Int) → ht1.count = (countLive ht1.items : Int))

theorem insertAllWith_spec (ins : HtTab → Str → Str → Option HtTab) (hins : InsSpec ins) :
    ∀ pairs ht0 ht1, TabInv ht0 → (pairs.map Prod.fst).Nodup →
      insertAllWith ins ht0 pairs = some ht1 →
      TabInv ht1 ∧
      (∀ k v, MapsTo ht1 k v ↔
         ((k, v) ∈ pairs ∨ (k ∉ pairs.map Prod.fst ∧ MapsTo ht0 k v))) ∧
      (ht0.count = (countLive ht0.items : Int) →
        ht1.count = (countLive ht1.items : Int)) := by
  intro pairs
  induction pairs with
  | nil =>
    intro ht0 ht1 hInv _ hrun
    simp only [insertAllWith, Option.some.injEq] at hrun
    subst hrun
    exact ⟨hInv, fun k v => by simp, fun h => h⟩
  | cons p rest ih =>
    obtain ⟨key, value⟩ := p
    intro ht0 ht1 hInv hnodup hrun
    simp only [insertAllWith] at hrun
    cases hstep : ins ht0 key value with
    | none =>
      rw [hstep] at hrun
      exact Option.noConfusion hrun
    | some htm =>
      rw [hstep] at hrun
      obtain ⟨hInvm, hmapm, hcountm⟩ := hins ht0 key value htm hInv hstep
      have hnodup2 : (key :: rest.map Prod.fst).Nodup := by simpa using hnodup
      have hnodup' : (rest.map Prod.fst).Nodup := (List.nodup_cons.mp hnodup2).2
      have hkey_not : key ∉ rest.map Prod.fst := (List.nodup_cons.mp hnodup2).1
      obtain ⟨hInv1, hmap1, hcount1⟩ := ih htm ht1 hInvm hnodup' hrun
      refine ⟨hInv1, ?_, fun hc => hcount1 (hcountm hc)⟩
      intro k v
      rw [hmap1 k v]
      constructor
      · rintro (hmem | ⟨hknot, hmm⟩)
        · exact Or.inl (List.mem_cons.mpr (Or.inr hmem))
        · rcases (hmapm k v).mp hmm with ⟨hk, hv⟩ | ⟨hk, hm0⟩
          · exact Or.inl (List.mem_cons.mpr (Or.inl (by rw [hk, hv])))
          · refine Or.inr ⟨?_, hm0⟩
            simp only [List.map_cons, List.mem_cons]
            rintro (h | h)
            · exact hk h
            · exact hknot h
      · rintro (hmem | ⟨hknot, hm0⟩)
        · rcases List.mem_cons.mp hmem with heq | hmem'
          · have hk : k = key := congrArg Prod.fst heq
            have hv : v = value := congrArg Prod.snd heq
            refine Or.inr ⟨?_, (hmapm k v).mpr (Or.inl ⟨hk, hv⟩)⟩
            rw [hk]
            exact hkey_not
          · exact Or.inl hmem'
        · simp only [List.map_cons, List.mem_cons] at hknot
          push_neg at hknot
          exact Or.inr ⟨hknot.2, (hmapm k v).mpr (Or.inr ⟨hknot.1, hm0⟩)⟩

theorem htResizeWith_spec (ins : HtTab → Str → Str → Option HtTab) (hins : InsSpec ins)
    (ht : HtTab) (b : Nat) (ht1 : HtTab)
    (hInv : TabInv ht) (hrun : htResizeWith ins ht b = some ht1) :
    TabInv ht1 ∧ (∀ k v, MapsTo ht1 k v ↔ MapsTo ht k v) ∧
    (b < HT_INITIAL_BASE_SIZE → ht1 = ht) ∧
    (¬ b < HT_INITIAL_BASE_SIZE → ht1.count = (countLive ht1.items : Int)) := by
  rw [htResizeWith] at hrun
  by_cases hb : b < HT_INITIAL_BASE_SIZE
  · rw [if_pos hb] at hrun
    simp only [Option.some.injEq] at hrun
    subst hrun
    exact ⟨hInv, fun k v => Iff.rfl, fun _ => rfl, fun hnb => absurd hb hnb⟩
  · rw [if_neg hb] at hrun
    cases hfold : insertAllWith ins (ht_new_sized b) (liveItems ht.items) with
    | none =>
      rw [hfold] at hrun
      exact Option.noConfusion hrun
    | some nt =>
      rw [hfold] at hrun
      simp only [Option.some.injEq] at hrun
      have hnt : nt = ht1 := hrun
      subst hnt
      obtain ⟨hInvN, hmapN, hcountN⟩ :=
        insertAllWith_spec ins hins (liveItems ht.items) (ht_new_sized b) nt
          (TabInv_new_sized b) (nodup_liveKeys _ hInv.2.2.1) hfold
      refine ⟨hInvN, ?_, fun hlt => absurd hlt hb, fun _ => ?_⟩
      · intro k v
        rw [hmapN k v]
        constructor
        · rintro (hmem | ⟨_, hm0⟩)
          · obtain ⟨j, hj, hget⟩ := (mem_liveItems _ k v).mp hmem
            exact ⟨j, hj, hget⟩
          · exact absurd hm0 (not_MapsTo_new_sized b k v)
        · rintro ⟨j, hj, hget⟩
          exact Or.inl ((mem_liveItems _ k v).mpr ⟨j, hj, hget⟩)
      · have h0 : (ht_new_sized b).count = (countLive (ht_new_sized b).items : Int) := by
          rw [countLive_new_sized]
          rfl
        exact hcountN h0

theorem ht_insert_spec : ∀ fuel, InsSpec (ht_insert fuel) := by
  intro fuel
  induction fuel with
  | zero =>
    intro ht key value ht1 _ hrun
    exact Option.noConfusion hrun
  | succ fuel ih =>
    intro ht key value ht1 hInv hrun
    cases hpre : (if loadOf ht > 70
        then htResizeWith (ht_insert fuel) ht (ht.base_size * 2)
        else some ht) with
    | none =>
      simp only [ht_insert, hpre] at hrun
      exact Option.noConfusion hrun
    | some htm =>
      simp only [ht_insert, hpre] at hrun
      have hpre_spec : TabInv htm ∧ (∀ k v, MapsTo htm k v ↔ MapsTo ht k v) ∧
          (ht.count = (countLive ht.items : Int) →
            htm.count = (countLive htm.items : Int)) := by
        by_cases hload : loadOf ht > 70
        · rw [if_pos hload] at hpre
          obtain ⟨h1, h2, h3, h4⟩ := htResizeWith_spec (ht_insert fuel) ih ht _ htm hInv hpre
          refine ⟨h1, h2, ?_⟩
          by_cases hb : ht.base_size * 2 < HT_INITIAL_BASE_SIZE
          · intro hc
            rw [h3 hb]
            exact hc
          · intro _
            exact h4 hb
        · rw [if_neg hload] at hpre
          simp only [Option.some.injEq] at hpre
          subst hpre
          exact ⟨hInv, fun k v => Iff.rfl, fun h => h⟩
      obtain ⟨hInvm, hmapm, hcountm⟩ := hpre_spec
      cases hloop : ht_insertLoop htm.size key value (fuel + 1) 0 htm.items with
      | none =>
        rw [hloop] at hrun
        exact Option.noConfusion hrun
      | some r =>
        obtain ⟨items1, placed⟩ := r
        rw [hloop] at hrun
        simp only [Option.some.injEq] at hrun
        obtain ⟨hlenm, hposm, huniqm, hreachm⟩ := hInvm
        obtain ⟨hlen1, huniq1, hreach1, hmap1, hcount1⟩ :=
          ht_insertLoop_char htm.size key value htm.items (fuel + 1) items1 placed
            hlenm hposm huniqm hreachm hloop
        subst hrun
        refine ⟨⟨?_, ?_, ?_, ?_⟩, ?_, ?_⟩
        · simpa [hlen1] using hlenm
        · exact hposm
        · exact huniq1
        · exact hreach1
        · intro k v
          simp only [MapsTo]
          rw [hmap1 k v]
          constructor
          · rintro (⟨hk, hv⟩ | ⟨hk, j, hj, hget⟩)
            · exact Or.inl ⟨hk, hv⟩
            · exact Or.inr ⟨hk, (hmapm k v).mp ⟨j, hj, hget⟩⟩
          · rintro (⟨hk, hv⟩ | ⟨hk, hm⟩)
            · exact Or.inl ⟨hk, hv⟩
            · obtain ⟨j, hj, hget⟩ := (hmapm k v).mpr hm
              exact Or.inr ⟨hk, j, hj, hget⟩
        · intro hc
          have hcm := hcountm hc
          simp only [countLive] at hcm hcount1 ⊢
          cases placed with
          | true =>
            simp at hcount1 ⊢
            omega
          | false =>
            simp at hcount1 ⊢
            omega

/-! ### Helper facts for the probe-injectivity claim -/

theorem probe_inj_aux (s : Str) (m : Nat) (hm : Nat.Prime m)
    (hstep : ¬ (m ∣ (ht_hash s HT_PRIME_2 m + 1)))
    (i j : Nat) (hij : i ≤ j) (hj : j < m)
    (heq : ht_get_hash s m i = ht_get_hash s m j) : i = j := by
  rw [ht_get_hash, ht_get_hash] at heq
  have hmod : Nat.ModEq m
      (i * (ht_hash s HT_PRIME_2 m + 1)) (j * (ht_hash s HT_PRIME_2 m + 1)) :=
    Nat.ModEq.add_left_cancel' (ht_hash s HT_PRIME_1 m) heq
  have hle : i * (ht_hash s HT_PRIME_2 m + 1) ≤ j * (ht_hash s HT_PRIME_2 m + 1) :=
    Nat.mul_le_mul_right _ hij
  have hdvd : m ∣ j * (ht_hash s HT_PRIME_2 m + 1) - i * (ht_hash s HT_PRIME_2 m + 1) :=
    (Nat.modEq_iff_dvd' hle).mp hmod
  rw [← Nat.sub_mul] at hdvd
  rcases (Nat.Prime.dvd_mul hm).mp hdvd with h | h
  · have := Nat.eq_zero_of_dvd_of_lt h (by omega)
    omega
  · exact absurd h hstep

/-! ### Size bookkeeping: `size` is a prime at least 53 after any operation -/

/-- The size-related invariant: the base size never drops below the initial
minimum, and the bucket count is a prime of at least 53. -/
def GoodSize (ht : HtTab) : Prop :=
  HT_INITIAL_BASE_SIZE ≤ ht.base_size ∧ Nat.Prime ht.size ∧ 53 ≤ ht.size

theorem GoodSize_new_sized (b : Nat) (hb : HT_INITIAL_BASE_SIZE ≤ b) :
    GoodSize (ht_new_sized b) := by
  obtain ⟨hp, hge⟩ := next_prime_spec b
  refine ⟨hb, hp, ?_⟩
  apply prime_ge_fifty_ge_53 _ hp
  have hb' : 50 ≤ b := hb
  omega

theorem insertAllWith_good (ins : HtTab → Str → Str → Option HtTab)
    (hins : ∀ ht k v ht1, GoodSize ht → ins ht k v = some ht1 → GoodSize ht1) :
    ∀ pairs ht0 ht1, GoodSize ht0 → insertAllWith ins ht0 pairs = some ht1 →
      GoodSize ht1 := by
  intro pairs
  induction pairs with
  | nil =>
    intro ht0 ht1 hg hrun
    simp only [insertAllWith, Option.some.injEq] at hrun
    subst hrun
    exact hg
  | cons p rest ih =>
    obtain ⟨key, value⟩ := p
    intro ht0 ht1 hg hrun
    simp only [insertAllWith] at hrun
    cases hstep : ins ht0 key value with
    | none =>
      rw [hstep] at hrun
      exact Option.noConfusion hrun
    | some htm =>
      rw [hstep] at hrun
      exact ih htm ht1 (hins ht0 key value htm hg hstep) hrun

theorem htResizeWith_good (ins : HtTab → Str → Str → Option HtTab)
    (hins : ∀ ht k v ht1, GoodSize ht → ins ht k v = some ht1 → GoodSize ht1)
    (ht : HtTab) (b : Nat) (ht1 : HtTab) (hg : GoodSize ht)
    (hrun : htResizeWith ins ht b = some ht1) : GoodSize ht1 := by
  rw [htResizeWith] at hrun
  by_cases hb : b < HT_INITIAL_BASE_SIZE
  · rw [if_pos hb] at hrun
    simp only [Option.some.injEq] at hrun
    subst hrun
    exact hg
  · rw [if_neg hb] at hrun
    cases hfold : insertAllWith ins (ht_new_sized b) (liveItems ht.items) with
    | none =>
      rw [hfold] at hrun
      exact Option.noConfusion hrun
    | some nt =>
      rw [hfold] at hrun
      simp only [Option.some.injEq] at hrun
      have hnt : nt = ht1 := hrun
      subst hnt
      exact insertAllWith_good ins hins (liveItems ht.items) (ht_new_sized b) nt
        (GoodSize_new_sized b (by omega)) hfold

theorem ht_insert_good :
    ∀ fuel ht key value ht1, GoodSize ht → ht_insert fuel ht key value = some ht1 →
      GoodSize ht1 := by
  intro fuel
  induction fuel with
  | zero =>
    intro ht key value ht1 _ hrun
    exact Option.noConfusion hrun
  | succ fuel ih =>
    intro ht key value ht1 hg hrun
    cases hpre : (if loadOf ht > 70
        then htResizeWith (ht_insert fuel) ht (ht.base_size * 2)
        else some ht) with
    | none =>
      simp only [ht_insert, hpre] at hrun
      exact Option.noConfusion hrun
    | some htm =>
      simp only [ht_insert, hpre] at hrun
      have hgm : GoodSize htm := by
        by_cases hload : loadOf ht > 70
        · rw [if_pos hload] at hpre
          exact htResizeWith_good (ht_insert fuel) ih ht _ htm hg hpre
        · rw [if_neg hload] at hpre
          simp only [Option.some.injEq] at hpre
          subst hpre
          exact hg
      cases hloop : ht_insertLoop htm.size key value (fuel + 1) 0 htm.items with
      | none =>
        rw [hloop] at hrun
        exact Option.noConfusion hrun
      | some r =>
        obtain ⟨items1, placed⟩ := r
        rw [hloop] at hrun
        simp only [Option.some.injEq] at hrun
        subst hrun
        exact hgm

theorem ht_delete_good (fuel : Nat) (ht : HtTab) (key : Str) (ht1 : HtTab)
    (hg : GoodSize ht) (hrun : ht_delete fuel ht key = some ht1) : GoodSize ht1 := by
  cases hpre : (if loadOf ht < 10 then ht_resize_down fuel ht else some ht) with
  | none =>
    simp only [ht_delete, hpre] at hrun
    exact Option.noConfusion hrun
  | some htm =>
    simp only [ht_delete, hpre] at hrun
    have hgm : GoodSize htm := by
      by_cases hload : loadOf ht < 10
      · rw [if_pos hload] at hpre
        exact htResizeWith_good (ht_insert fuel) (fun h k v h1 => ht_insert_good fuel h k v h1)
          ht _ htm hg hpre
      · rw [if_neg hload] at hpre
        simp only [Option.some.injEq] at hpre
        subst hpre
        exact hg
    cases hloop : ht_deleteLoop htm.size key fuel 0 htm.items with
    | none =>
      rw [hloop] at hrun
      exact Option.noConfusion hrun
    | some items1 =>
      rw [hloop] at hrun
      simp only [Option.some.injEq] at hrun
      subst hrun
      exact hgm

theorem runOps_good (fuel : Nat) :
    ∀ ops ht ht1, GoodSize ht → runOps fuel ht ops = some ht1 → GoodSize ht1 := by
  intro ops
  induction ops with
  | nil =>
    intro ht ht1 hg hrun
    simp only [runOps, Option.some.injEq] at hrun
    subst hrun
    exact hg
  | cons op rest ih =>
    intro ht ht1 hg hrun
    simp only [runOps] at hrun
    cases hstep : runOp fuel ht op with
    | none =>
      rw [hstep] at hrun
      exact Option.noConfusion hrun
    | some htm =>
      rw [hstep] at hrun
      refine ih htm ht1 ?_ hrun
      cases op with
      | ins k v => exact ht_insert_good fuel ht k v htm hg hstep
      | del k => exact ht_delete_good fuel ht k htm hg hstep
      | sea k =>
        simp only [runOp] at hstep
        cases hs : ht_search fuel ht k with
        | none =>
          rw [hs] at hstep
          exact Option.noConfusion hstep
        | some r =>
          rw [hs] at hstep
          simp at hstep
          subst hstep
          exact hg

/-! ### Claim theorems -/

/-- C1 (amended): for every sequence of inserts with pairwise distinct keys
starting from a fresh table, provided every insert terminates (each probing
loop finds a slot within the given fuel — the C loop hangs forever on a key
whose probe step is divisible by the table size, see the counterexample), a
subsequent `ht_search` with at least `size` fuel returns the most recently
inserted value for every key of the sequence.  Resize-ups triggered along
the way are covered: `runInserts` is the full `ht_insert` including the
load-factor check and rebuild. -/
theorem C1_distinct_inserts_search_amended (fuel : Nat) (pairs : List (Str × Str))
    (ht : HtTab) (hnodup : (pairs.map Prod.fst).Nodup)
    (hrun : runInserts fuel pairs = some ht) :
    ∀ k v, (k, v) ∈ pairs → ∀ F, ht.size ≤ F → ht_search F ht k = some (some v) := by
  obtain ⟨hInv, hmap, _⟩ := insertAllWith_spec _ (ht_insert_spec fuel) pairs ht_new ht
    (TabInv_new_sized HT_INITIAL_BASE_SIZE) hnodup hrun
  intro k v hmem F hF
  exact ht_search_found ht k v hInv ((hmap k v).mpr (Or.inl hmem)) F hF

/-- C2 (confirmed): inserting a key that is live in the table — live at the
first key match of its probe sequence, with no `NULL` slot at an earlier
attempt, which is how every live key is stored by the operations themselves
— overwrites that bucket in place, leaves `count` unchanged, and a
subsequent search returns the new value.  The load-factor hypothesis keeps
the insert on its non-resizing path, where "the same bucket" is
meaningful. -/
theorem C2_insert_existing_key_updates_in_place (fuel t : Nat) (ht : HtTab)
    (key value v0 : Str)
    (hload : ¬ loadOf ht > 70)
    (hmatch : ht.items.getD (ht_get_hash key ht.size t) Bucket.empty
      = Bucket.occ key v0)
    (hbefore : ∀ a, a < t →
      stopB key (ht.items.getD (ht_get_hash key ht.size a) Bucket.empty) = false)
    (hfuel : t < fuel) :
    ht_insert fuel ht key value =
      some { ht with
             items := ht.items.set (ht_get_hash key ht.size t) (Bucket.occ key value) } ∧
    ∀ F, t < F →
      ht_search F
        { ht with
          items := ht.items.set (ht_get_hash key ht.size t) (Bucket.occ key value) }
        key = some (some value) := by
  have hloops : ht_insertLoop ht.size key value fuel 0 ht.items
      = some (ht.items.set (ht_get_hash key ht.size t) (Bucket.occ key value), false) := by
    have hdecomp : fuel = (fuel - t) + t := by omega
    rw [hdecomp, ht_insertLoop_skip_n ht.size key value ht.items t (fuel - t) 0
      (fun d hd => by simpa using hbefore d hd)]
    simp only [Nat.zero_add]
    obtain ⟨g, hg⟩ : ∃ g, fuel - t = g + 1 := ⟨fuel - t - 1, by omega⟩
    rw [hg]
    exact ht_insertLoop_stop_match ht.size key value v0 g t ht.items hmatch
  constructor
  · obtain ⟨g1, hg1⟩ : ∃ g1, fuel = g1 + 1 := ⟨fuel - 1, by omega⟩
    have hloops2 : ht_insertLoop ht.size key value (g1 + 1) 0 ht.items
        = some (ht.items.set (ht_get_hash key ht.size t) (Bucket.occ key value), false) := by
      rw [← hg1]
      exact hloops
    rw [hg1]
    simp only [ht_insert, if_neg hload, hloops2]
    rfl
  · intro F hF
    have hne_idx : ∀ a, a < t → ht_get_hash key ht.size a ≠ ht_get_hash key ht.size t := by
      intro a ha heq
      have hsk := hbefore a ha
      rw [heq, hmatch] at hsk
      simp [stopB] at hsk
    have hskip2 : ∀ a, a < t →
        stopB key ((ht.items.set (ht_get_hash key ht.size t)
          (Bucket.occ key value)).getD (ht_get_hash key ht.size a) Bucket.empty)
          = false := by
      intro a ha
      rw [getD_set_ne _ _ _ _ (fun h => hne_idx a ha h.symm)]
      exact hbefore a ha
    have hstop2 : (ht.items.set (ht_get_hash key ht.size t)
        (Bucket.occ key value)).getD (ht_get_hash key ht.size t) Bucket.empty
        = Bucket.occ key value :=
      getD_set_self _ _ _ (getD_eq_occ_lt_length _ _ _ _ hmatch)
    show ht_searchLoop ht.size key
      (ht.items.set (ht_get_hash key ht.size t) (Bucket.occ key value)) F 0
      = some (some value)
    have hdecomp : F = (F - t) + t := by omega
    rw [hdecomp, ht_searchLoop_skip_n ht.size key _ t (F - t) 0
      (fun d hd => by simpa using hskip2 d hd)]
    simp only [Nat.zero_add]
    obtain ⟨g, hg⟩ : ∃ g, F - t = g + 1 := ⟨F - t - 1, by omega⟩
    rw [hg]
    exact ht_searchLoop_stop_match ht.size key value _ g t hstop2

/-- C3 (amended): whenever the `ht_delete` call terminates (the C loop
hangs forever on keys with a degenerate probe step, see the
counterexample), a subsequent `ht_search` for the same key with the same
fuel reports "not found" — this holds for every table and every key, in
particular for previously inserted keys. -/
theorem C3_delete_then_search_not_found_amended (fuel : Nat) (ht ht1 : HtTab)
    (key : Str) (hdel : ht_delete fuel ht key = some ht1) :
    ht_search fuel ht1 key = some none := by
  cases hpre : (if loadOf ht < 10 then ht_resize_down fuel ht else some ht) with
  | none =>
    simp only [ht_delete, hpre] at hdel
    exact Option.noConfusion hdel
  | some htm =>
    simp only [ht_delete, hpre] at hdel
    cases hloop : ht_deleteLoop htm.size key fuel 0 htm.items with
    | none =>
      rw [hloop] at hdel
      exact Option.noConfusion hdel
    | some items1 =>
      rw [hloop] at hdel
      simp only [Option.some.injEq] at hdel
      subst hdel
      show ht_searchLoop htm.size key items1 fuel 0 = some none
      exact ht_deleteLoop_then_search htm.size key fuel 0 htm.items items1 hloop

/-- C4 (amended): when the call terminates and no actual resize-down runs
(either the load is not below 10, or the halved base size falls under the
minimum so the resize is a no-op), `ht_delete` decrements `count` by
exactly one — even when no bucket holds the key.  When an actual
resize-down runs first, `count` is instead rebuilt from the live items and
then decremented, so the net change can differ from −1 (see the
counterexample). -/
theorem C4_delete_decrements_count_amended (fuel : Nat) (ht ht1 : HtTab) (key : Str)
    (hnores : ¬ loadOf ht < 10 ∨ ht.base_size / 2 < HT_INITIAL_BASE_SIZE)
    (hdel : ht_delete fuel ht key = some ht1) :
    ht1.count = ht.count - 1 := by
  have hpre : (if loadOf ht < 10 then ht_resize_down fuel ht else some ht) = some ht := by
    rcases hnores with h | h
    · rw [if_neg h]
    · by_cases hl : loadOf ht < 10
      · rw [if_pos hl, ht_resize_down, ht_resize, htResizeWith, if_pos h]
      · rw [if_neg hl]
  simp only [ht_delete, hpre] at hdel
  cases hloop : ht_deleteLoop ht.size key fuel 0 ht.items with
  | none =>
    rw [hloop] at hdel
    exact Option.noConfusion hdel
  | some items1 =>
    rw [hloop] at hdel
    simp only [Option.some.injEq] at hdel
    rw [← hdel]

/-- C5 (amended): an insert of a key that does not match any live bucket on
the probe prefix places the new item in the first EMPTY (`NULL`) bucket of
the probe sequence and increments `count`; tombstoned slots are skipped
over, not reused (the hypothesis list requires every earlier slot to be a
non-stop slot, i.e. a tombstone or a non-matching live item — see the
counterexample for a reusable tombstone being skipped).  The load-factor
hypothesis keeps the insert on its non-resizing path. -/
theorem C5_insert_first_empty_slot_amended (fuel t : Nat) (ht : HtTab)
    (key value : Str)
    (hload : ¬ loadOf ht > 70)
    (hempty : ht.items.getD (ht_get_hash key ht.size t) Bucket.empty = Bucket.empty)
    (hbefore : ∀ a, a < t →
      stopB key (ht.items.getD (ht_get_hash key ht.size a) Bucket.empty) = false)
    (hfuel : t < fuel) :
    ht_insert fuel ht key value =
      some { ht with
             items := ht.items.set (ht_get_hash key ht.size t) (Bucket.occ key value)
             count := ht.count + 1 } := by
  have hloops : ht_insertLoop ht.size key value fuel 0 ht.items
      = some (ht.items.set (ht_get_hash key ht.size t) (Bucket.occ key value), true) := by
    have hdecomp : fuel = (fuel - t) + t := by omega
    rw [hdecomp, ht_insertLoop_skip_n ht.size key value ht.items t (fuel - t) 0
      (fun d hd => by simpa using hbefore d hd)]
    simp only [Nat.zero_add]
    obtain ⟨g, hg⟩ : ∃ g, fuel - t = g + 1 := ⟨fuel - t - 1, by omega⟩
    rw [hg]
    exact ht_insertLoop_stop_empty ht.size key value g t ht.items hempty
  obtain ⟨g1, hg1⟩ : ∃ g1, fuel = g1 + 1 := ⟨fuel - 1, by omega⟩
  have hloops2 : ht_insertLoop ht.size key value (g1 + 1) 0 ht.items
      = some (ht.items.set (ht_get_hash key ht.size t) (Bucket.occ key value), true) := by
    rw [← hg1]
    exact hloops
  rw [hg1]
  simp only [ht_insert, if_neg hload, hloops2]
  rfl

/-- C6 (amended): the probe step `hash_b(s) + 1` is never zero as an
integer, but it can be divisible by the table size `m`, collapsing the
probe sequence to a single index (see the counterexample).  Whenever `m` is
prime and the step is not divisible by `m`, the first `m` attempts visit
`m` pairwise distinct indices. -/
theorem C6_probe_step_amended (s : Str) (m : Nat) :
    0 < ht_hash s HT_PRIME_2 m + 1 ∧
    (Nat.Prime m → ¬ (m ∣ (ht_hash s HT_PRIME_2 m + 1)) →
      ∀ i, i < m → ∀ j, j < m → ht_get_hash s m i = ht_get_hash s m j → i = j) := by
  refine ⟨Nat.succ_pos _, ?_⟩
  intro hm hstep i hi j hj heq
  rcases Nat.le_total i j with hij | hij
  · exact probe_inj_aux s m hm hstep i j hij hj heq
  · exact (probe_inj_aux s m hm hstep j i hij hi heq.symm).symm

/-- C7 (confirmed, with `next_prime` modelled from the spec): after any
sequence of insert, search and delete operations run from a fresh table,
the `size` field is a prime number of at least `next_prime 50 = 53`. -/
theorem C7_size_always_prime (fuel : Nat) (ops : List Op) (ht : HtTab)
    (hrun : runOps fuel ht_new ops = some ht) :
    Nat.Prime ht.size ∧ 53 ≤ ht.size := by
  have hg : GoodSize ht :=
    runOps_good fuel ops ht_new ht
      (GoodSize_new_sized HT_INITIAL_BASE_SIZE (Nat.le_refl _)) hrun
  exact ⟨hg.2.1, hg.2.2⟩

/-- C9 (amended): an actual resize does not propagate a desynchronised
count — it resynchronises it.  After `ht_resize` with a base size at or
above the minimum, `count` equals the number of live items of the new
bucket array exactly (the inherited difference `d` collapses to 0), while
the live bindings themselves are preserved. -/
theorem C9_resize_resyncs_count_amended (fuel : Nat) (ht ht1 : HtTab) (b : Nat)
    (hInv : TabInv ht) (hb : ¬ b < HT_INITIAL_BASE_SIZE)
    (hrun : ht_resize fuel ht b = some ht1) :
    ht1.count = (countLive ht1.items : Int) ∧
    (∀ k v, MapsTo ht1 k v ↔ MapsTo ht k v) := by
  obtain ⟨h1, h2, h3, h4⟩ :=
    htResizeWith_spec (ht_insert fuel) (ht_insert_spec fuel) ht b ht1 hInv hrun
  exact ⟨h4 hb, h2⟩

/-- C10 (confirmed): `ht_search` modifies nothing — threading the table
through the embedded search loop returns it with `size`, `base_size`,
`count` and every bucket unchanged. -/
theorem C10_search_pure (fuel : Nat) (ht ht1 : HtTab) (key : Str) (r : Option Str)
    (h : ht_searchS fuel ht key = some (ht1, r)) :
    ht1.size = ht.size ∧ ht1.base_size = ht.base_size ∧
    ht1.count = ht.count ∧ ht1.items = ht.items := by
  have heq : ht1 = ht := ht_searchLoopS_fst key fuel 0 ht ht1 r h
  subst heq
  exact ⟨rfl, rfl, rfl, rfl⟩

/-! ### Concrete tables for counterexamples and witnesses -/

set_option maxRecDepth 1000000

instance (ht : HtTab) : Decidable (TabInv ht) := by
  have d1 : Decidable (UniqKeys ht.items) := by unfold UniqKeys; infer_instance
  have d2 : Decidable (ReachOk ht.size ht.items) := by unfold ReachOk; infer_instance
  unfold TabInv
  exact instDecidableAnd

/-- 40 pairwise distinct one-character keys, enough to trigger a
resize-up. -/
def C1pairs : List (Str × Str) := (List.range 40).map (fun i => ([i + 33], [i]))

/-- The table after inserting `C1pairs` (the run includes one resize-up to
size 101). -/
def C1tab : HtTab := (runInserts 600 C1pairs).getD ht_new

/-- The table after inserting the key `","` (code 44, bucket 44). -/
def C5pre : HtTab :=
  ((ht_insert 100 ht_new [44] [1]).bind (fun u => ht_delete 100 u [44])).getD ht_new

/-- `C5pre` after inserting the key `"a"` (code 97, whose probe also starts
at bucket 44). -/
def C5run : HtTab := (ht_insert 100 C5pre [97] [9]).getD ht_new

/-- A table whose `count` (10) undercounts its 12 live items, with load
below 10 percent, so a delete triggers an actual resize-down. -/
def C4tab : HtTab :=
  { base_size := 100, size := 101, count := 10
    items := ((List.range 12).map fun i => Bucket.occ [i] [0])
      ++ List.replicate 89 Bucket.empty }

/-- A well-formed bucket array whose `count` (5) overcounts its 2 live
items by 3. -/
def C9tab : HtTab :=
  { base_size := 50, size := 53, count := 5
    items := ((List.range 2).map fun i => Bucket.occ [i] [0])
      ++ List.replicate 51 Bucket.empty }

/-- `C9tab` after `ht_resize` to base size 100. -/
def C9res : HtTab := (ht_resize 600 C9tab 100).getD ht_new

/-- The table after inserting the key `"a"` with value `[1]`. -/
def C2tab : HtTab := (ht_insert 10 ht_new [97] [1]).getD ht_new

/-- `C2tab` after overwriting the key `"a"` with value `[2]` in place. -/
def C2res : HtTab :=
  { C2tab with
    items := C2tab.items.set (ht_get_hash [97] C2tab.size 0) (Bucket.occ [97] [2]) }

/-- The table after inserting the key `"cat"`. -/
def C3tab : HtTab := (ht_insert 100 ht_new [99, 97, 116] [1]).getD ht_new

/-- `C3tab` after deleting the key `"cat"`. -/
def C3tab2 : HtTab := (ht_delete 100 C3tab [99, 97, 116]).getD ht_new

/-- `C3tab` after deleting the absent key `"x"` (code 120). -/
def C4wres : HtTab := (ht_delete 100 C3tab [120]).getD ht_new

/-- A short operation sequence: insert, search, delete, insert. -/
def C7ops : List Op :=
  [Op.ins [99] [1], Op.sea [99], Op.del [99], Op.ins [100] [2]]

/-- The table after running `C7ops` from a fresh table. -/
def C7tab : HtTab := (runOps 100 ht_new C7ops).getD ht_new

/-! ### Counterexamples -/

/-- C1 counterexample: the two keys `"4"` (code 52) and `"i"` (code 105)
are distinct, yet the insert sequence never completes: the probe step of
`"i"` is `(hash_b + 1) = 53 ≡ 0 (mod 53)`, so every probe attempt lands on
bucket 52, which the first insert occupies with a different key — the C
loop runs forever.  Fuel 600 exceeds eleven times the table size 53. -/
theorem C1_cex_insert_hangs :
    (List.map Prod.fst [(([52] : Str), ([0] : Str)), ([105], [1])]).Nodup ∧
    runInserts 600 [(([52] : Str), ([0] : Str)), ([105], [1])] = none := by
  decide

/-- C3 counterexample: the key `"i"` (code 105) is inserted successfully,
but deleting it afterwards never terminates: the tombstone written at
bucket 52 is revisited by every subsequent probe attempt and is not `NULL`,
so the C loop never exits and no search can follow. -/
theorem C3_cex_delete_hangs :
    (ht_insert 600 ht_new [105] [7]).map (fun u => ht_delete 600 u [105])
      = some none := by
  decide

/-- C4 counterexample: deleting an absent key from `C4tab` first triggers
an actual resize-down (load 9 < 10, halved base 50 is not under the
minimum), which rebuilds `count` from the 12 live items; the unconditional
decrement then yields 11 — the count increased by 1 instead of decreasing
by 1. -/
theorem C4_cex_resize_resync :
    (ht_delete 600 C4tab [200]).map (fun u => u.count) = some 11 ∧
    C4tab.count = 10 ∧ ¬ ((11 : Int) = 10 - 1) := by
  decide

/-- C5 counterexample: after deleting `","`, bucket 44 is a tombstone and
it is the very first slot of the probe sequence of `"a"` — the first free
(empty-or-tombstone) bucket.  Yet inserting `"a"` skips it and places the
item in bucket 36 (the next probe attempt), leaving the tombstone in
place: tombstoned slots are never reused by `ht_insert`. -/
theorem C5_cex_tombstone_not_reused :
    ht_get_hash [97] C5pre.size 0 = 44 ∧
    C5pre.items.getD 44 Bucket.empty = Bucket.deleted ∧
    ht_insert 100 C5pre [97] [9] = some C5run ∧
    C5run.items.getD 44 Bucket.empty = Bucket.deleted ∧
    C5run.items.getD 36 Bucket.empty = Bucket.occ [97] [9] ∧
    C5run.count = C5pre.count + 1 := by
  decide

/-- C6 counterexample: for the key `"i"` (code 105) and the initial table
size `m = 53` (a size the table actually has: `ht_new.size = 53`), the
probe step `hash_b + 1` is divisible by `m`, so the probe sequence is
constant: all 53 attempts visit one single index, not 53 distinct ones. -/
theorem C6_cex_step_zero_mod_m :
    ht_new.size = 53 ∧
    (ht_hash [105] HT_PRIME_2 53 + 1) % 53 = 0 ∧
    ht_get_hash [105] 53 0 = ht_get_hash [105] 53 1 ∧
    ((List.range 53).map (ht_get_hash [105] 53)).toFinset.card = 1 := by
  decide

/-- C9 counterexample: `C9tab` has `count − live = 5 − 2 = 3 ≠ 0`; after an
actual resize the difference is 0, not 3 — the desynchronisation is not
propagated but erased. -/
theorem C9_cex_desync_not_preserved :
    ht_resize 600 C9tab 100 = some C9res ∧
    C9tab.count - (countLive C9tab.items : Int) = 3 ∧
    C9res.count - (countLive C9res.items : Int) = 0 ∧
    ¬ (C9res.count - (countLive C9res.items : Int)
        = C9tab.count - (countLive C9tab.items : Int)) := by
  decide

/-! ### Witnesses -/

/-- C1 witness: the amended theorem applied to the 40-key run (which
includes a resize-up to size 101): the key `[33]` still maps to `[0]`. -/
theorem C1_witness : ht_search 101 C1tab [33] = some (some [0]) :=
  C1_distinct_inserts_search_amended 600 C1pairs C1tab (by decide) rfl
    [33] [0] (by decide) 101 (by decide)

/-- C2 witness: overwriting the live key `"a"` in place in `C2tab`. -/
theorem C2_witness :
    ht_insert 10 C2tab [97] [2] = some C2res ∧
    ht_search 60 C2res [97] = some (some [2]) := by
  have h := C2_insert_existing_key_updates_in_place 10 0 C2tab [97] [2] [1]
    (by decide) (by decide) (fun a ha => absurd ha (Nat.not_lt_zero a)) (by decide)
  exact ⟨h.1, h.2 60 (by decide)⟩

/-- C3 witness: deleting the previously inserted key `"cat"` terminates,
and the subsequent search reports "not found". -/
theorem C3_witness : ht_search 100 C3tab2 [99, 97, 116] = some none :=
  C3_delete_then_search_not_found_amended 100 C3tab C3tab2 [99, 97, 116] rfl

/-- C4 witness: deleting the absent key `"x"` from the one-item table
`C3tab` (no actual resize-down: the halved base 25 is under the minimum)
still decrements `count` by exactly one. -/
theorem C4_witness : C4wres.count = C3tab.count - 1 :=
  C4_delete_decrements_count_amended 100 C3tab C4wres [120]
    (Or.inr (by decide)) rfl

/-- C5 witness: inserting `"a"` into the fresh table places it at the first
(empty) probe slot, bucket 44, and increments `count`. -/
theorem C5_witness :
    ht_insert 10 ht_new [97] [5] =
      some { ht_new with
             items := ht_new.items.set (ht_get_hash [97] ht_new.size 0)
               (Bucket.occ [97] [5])
             count := ht_new.count + 1 } :=
  C5_insert_first_empty_slot_amended 10 0 ht_new [97] [5] (by decide) (by decide)
    (fun a ha => absurd ha (Nat.not_lt_zero a)) (by decide)

/-- C6 witness: for the key `"a"` (code 97) and the prime size 53 the step
45 is not divisible by 53, so distinct attempts give distinct indices. -/
theorem C6_witness : ht_get_hash [97] 53 2 ≠ ht_get_hash [97] 53 4 := by
  intro heq
  have h := (C6_probe_step_amended [97] 53).2 (by decide) (by decide)
    2 (by decide) 4 (by decide) heq
  exact absurd h (by decide)

/-- C7 witness: after a concrete insert/search/delete/insert sequence the
size is a prime of at least 53. -/
theorem C7_witness : Nat.Prime C7tab.size ∧ 53 ≤ C7tab.size :=
  C7_size_always_prime 100 C7ops C7tab rfl

/-- C9 witness: resizing the well-formed desynchronised table `C9tab`
leaves `count` equal to the number of live items. -/
theorem C9_witness : C9res.count = (countLive C9res.items : Int) :=
  (C9_resize_resyncs_count_amended 600 C9tab C9res 100 (by decide) (by decide) rfl).1

/-- C10 witness: a terminating search (here: for the absent key `"b"` on
`C2tab`) leaves every field of the table unchanged. -/
theorem C10_witness :
    C2tab.size = C2tab.size ∧ C2tab.base_size = C2tab.base_size ∧
    C2tab.count = C2tab.count ∧ C2tab.items = C2tab.items :=
  C10_search_pure 60 C2tab C2tab [98] none rfl
